import Mathlib

/-!
Verification of the tdd-ratchet core: the status ledger data model
(src/src/status.rs), the ratchet evaluator (src/src/ratchet.rs) and the
history rule checker (src/src/history.rs), embedded shallowly.  Rust
`BTreeMap<String, _>` values are modelled as key-sorted association lists
with an ordered insert; `&str` ordering is the byte-lexicographic order,
modelled on Unicode code points (equivalent on UTF-8 strings).
-/

/-- Boolean lexicographic order on character lists, by code point.  This is
the order of Rust `String` keys in a `BTreeMap` (byte-lexicographic on
UTF-8, which coincides with code-point order). -/
def charListLt : List Char → List Char → Bool
  | _, [] => false
  | [], _ :: _ => true
  | a :: as, b :: bs =>
    decide (a.toNat < b.toNat) || (decide (a.toNat = b.toNat) && charListLt as bs)

/-- Lexicographic order on strings, used for `BTreeMap` key ordering. -/
def strLt (a b : String) : Bool := charListLt a.toList b.toList

/-- Model of Rust `str::ends_with`: suffix test on the character list. -/
def strEndsWith (s pat : String) : Bool := pat.toList.isSuffixOf s.toList

/-- Lookup in an association list, modelling `BTreeMap::get`. -/
def mapGet {α : Type} (m : List (String × α)) (k : String) : Option α :=
  match m with
  | [] => none
  | (k', v) :: rest => if k' = k then some v else mapGet rest k

/-- Ordered insert, modelling `BTreeMap::insert`: replaces the value at an
existing key and keeps the keys sorted. -/
def mapInsert {α : Type} (m : List (String × α)) (k : String) (v : α) : List (String × α) :=
  match m with
  | [] => [(k, v)]
  | (k', v') :: rest =>
    if strLt k k' then (k, v) :: (k', v') :: rest
    else if k = k' then (k, v) :: rest
    else (k', v') :: mapInsert rest k v

/-- Invariant of every list that models a `BTreeMap`: keys strictly
increasing, hence distinct. -/
def SortedKeys {α : Type} (m : List (String × α)) : Prop :=
  List.Pairwise (fun p q => strLt p.1 q.1 = true) m

/-- Per-test state tracked by the ledger (src/src/status.rs `TestState`). -/
inductive TestState where
  | pending
  | passing
deriving DecidableEq, Repr

/-- A tracked test's ledger entry.  The `Simple`/`WithBaseline` constructors
and the `state`/`baseline` accessors are those used by src/src/ratchet.rs,
src/src/history.rs and the repository's tests; the definition itself is
absent from the src/src/status.rs snapshot (which predates per-test
baselines).  Modelled from the spec: `TestEntry` is
`\x7b state: TestState, baseline: Option<CommitId> \x7d` (spec section 3). -/
inductive TestEntry where
  | Simple (state : TestState)
  | WithBaseline (state : TestState) (baseline : String)
deriving DecidableEq, Repr

/-- State of an entry, as `TestEntry::state()` in the callers. -/
def TestEntry.state : TestEntry → TestState
  | TestEntry.Simple s => s
  | TestEntry.WithBaseline s _ => s

/-- Per-test baseline of an entry, as `TestEntry::baseline()` in the
callers: present only on the structured form. -/
def TestEntry.baseline : TestEntry → Option String
  | TestEntry.Simple _ => none
  | TestEntry.WithBaseline _ b => some b

/-- The canonical schema URL written on save (src/src/status.rs). -/
def SCHEMA_URL : String := "https://tdd-ratchet.maxeonyx.com/schema/test-status.v1.json"

/-- The persisted status ledger (src/src/status.rs `StatusFile`): the
`$schema` annotation, the map from test name to entry, and the optional
global baseline commit. -/
structure StatusFile where
  schema : Option String
  tests : List (String × TestEntry)
  baseline : Option String
deriving DecidableEq, Repr

/-- Constructor `StatusFile::new` (src/src/status.rs). -/
def StatusFile.new (tests : List (String × TestEntry)) (baseline : Option String) : StatusFile :=
  { schema := none, tests := tests, baseline := baseline }

/-- Constructor `StatusFile::empty` (src/src/status.rs). -/
def StatusFile.empty : StatusFile :=
  StatusFile.new [] none

/-- Outcome of one live test (src/src/runner.rs `TestOutcome`). -/
inductive TestOutcome where
  | Passed
  | Failed
  | Ignored
deriving DecidableEq, Repr

/-- One live test result (src/src/runner.rs `TestResult`). -/
structure TestResult where
  name : String
  outcome : TestOutcome
deriving DecidableEq, Repr

/-- The gatekeeper test name (src/src/ratchet.rs `GATEKEEPER_TEST_NAME`). -/
def GATEKEEPER_TEST_NAME : String := "tdd_ratchet_gatekeeper"

/-- Unified violation type of the evaluator (src/src/ratchet.rs `Violation`). -/
inductive Violation where
  | NewTestPassed (test : String)
  | Regression (test : String)
  | TestDisappeared (test : String)
  | SkippedPending (test : String) (commit : String)
  | MissingGatekeeper
deriving DecidableEq, Repr

/-- Result of one evaluation (src/src/ratchet.rs `EvalResult`). -/
structure EvalResult where
  violations : List Violation
  updated : StatusFile
deriving DecidableEq, Repr

/-- A status-file snapshot at one commit (src/src/history.rs `HistorySnapshot`). -/
structure HistorySnapshot where
  commit : String
  status : StatusFile
deriving DecidableEq, Repr

/-- History-check violation (src/src/history.rs `HistoryViolation`). -/
inductive HistoryViolation where
  | SkippedPending (test : String) (commit : String)
deriving DecidableEq, Repr

/-- Per-test baselines collected from the latest snapshot
(src/src/history.rs, the `per_test_baselines` map). -/
def perTestBaselines (snapshots : List HistorySnapshot) : List (String × String) :=
  match snapshots.getLast? with
  | none => []
  | some s =>
    s.status.tests.filterMap (fun p => (p.2.baseline).map (fun b => (p.1, b)))

/-- Commit-to-index map over the snapshot sequence (src/src/history.rs, the
`commit_index` map); a duplicated commit keeps its last index, as a
`BTreeMap` collect does. -/
def commitIndex (snapshots : List HistorySnapshot) : List (String × Nat) :=
  (snapshots.enum).foldl (fun m p => mapInsert m p.2.commit p.1) []

/-- Per-test grandfathering test (src/src/history.rs, the
`is_per_test_grandfathered` closure): the first appearance at or after the
per-test baseline commit is exempt; a baseline commit absent from the
snapshots exempts everything. -/
def perTestGrandfathered (ptb : List (String × String)) (cidx : List (String × Nat))
    (testName commit : String) : Bool :=
  match mapGet ptb testName with
  | none => false
  | some b =>
    match mapGet cidx commit, mapGet cidx b with
    | some si, some bi => decide (bi ≤ si)
    | some _, none => true
    | _, _ => false

/-- The first snapshot's commit when a global baseline is configured
(src/src/history.rs, `first_snapshot_commit`). -/
def firstSnapshotCommit (snapshots : List HistorySnapshot) (hasBaseline : Bool) :
    Option String :=
  if hasBaseline then (snapshots.head?).map HistorySnapshot.commit else none

/-- Combined exemption condition checked inside the history loop for a
first-seen passing test: globally grandfathered, per-test grandfathered, or
the gatekeeper (src/src/history.rs lines 125-148). -/
def histExemptCond (fsc : Option String) (ptb : List (String × String))
    (cidx : List (String × Nat)) (testName commit : String) : Bool :=
  (fsc == some commit) || perTestGrandfathered ptb cidx testName commit ||
    strEndsWith testName GATEKEEPER_TEST_NAME

/-- Inner loop of `check_history_snapshots`: scan one snapshot's test map,
recording unseen tests into the first-seen map and flagging first-seen
passing tests that are not exempt. -/
def historyScanTests (fsc : Option String) (ptb : List (String × String))
    (cidx : List (String × Nat)) (commit : String) :
    List (String × (String × TestState)) × List HistoryViolation →
    List (String × TestEntry) →
    List (String × (String × TestState)) × List HistoryViolation
  | acc, [] => acc
  | (fs, vs), (tn, entry) :: rest =>
    if (mapGet fs tn).isSome then
      historyScanTests fsc ptb cidx commit (fs, vs) rest
    else
      historyScanTests fsc ptb cidx commit
        (mapInsert fs tn (commit, entry.state),
         if entry.state = TestState.passing ∧ histExemptCond fsc ptb cidx tn commit = false
         then vs ++ [HistoryViolation.SkippedPending tn commit]
         else vs) rest

/-- Outer loop of `check_history_snapshots`: scan the snapshots oldest to
newest. -/
def historyScanSnapshots (fsc : Option String) (ptb : List (String × String))
    (cidx : List (String × Nat)) :
    List (String × (String × TestState)) × List HistoryViolation →
    List HistorySnapshot →
    List (String × (String × TestState)) × List HistoryViolation
  | acc, [] => acc
  | acc, snap :: rest =>
    historyScanSnapshots fsc ptb cidx
      (historyScanTests fsc ptb cidx snap.commit acc snap.status.tests) rest

/-- History rule checker (src/src/history.rs `check_history_snapshots`):
pure scan of the snapshot sequence flagging tests whose first recorded
appearance is passing without an exemption. -/
def check_history_snapshots (snapshots : List HistorySnapshot) (hasBaseline : Bool) :
    List HistoryViolation :=
  (historyScanSnapshots (firstSnapshotCommit snapshots hasBaseline)
    (perTestBaselines snapshots) (commitIndex snapshots) ([], []) snapshots).2

/-- Gatekeeper presence check (src/src/ratchet.rs lines 50-52): some
outcome's name ends with the gatekeeper name. -/
def hasGatekeeper (results : List TestResult) : Bool :=
  results.any (fun r => strEndsWith r.name GATEKEEPER_TEST_NAME)

/-- One step of the evaluator's transition loop (src/src/ratchet.rs lines
60-102): the prior state is looked up in the original status file, the
update is applied to the accumulated one. -/
def evalStep (status : StatusFile) (acc : List Violation × StatusFile) (r : TestResult) :
    List Violation × StatusFile :=
  match (mapGet status.tests r.name).map TestEntry.state, r.outcome with
  | none, TestOutcome.Failed =>
    (acc.1, { acc.2 with tests := mapInsert acc.2.tests r.name (TestEntry.Simple TestState.pending) })
  | none, TestOutcome.Passed =>
    if strEndsWith r.name GATEKEEPER_TEST_NAME then
      (acc.1, { acc.2 with tests := mapInsert acc.2.tests r.name (TestEntry.Simple TestState.passing) })
    else
      (acc.1 ++ [Violation.NewTestPassed r.name], acc.2)
  | none, TestOutcome.Ignored => acc
  | some TestState.pending, TestOutcome.Failed => acc
  | some TestState.pending, TestOutcome.Passed =>
    (acc.1, { acc.2 with tests := mapInsert acc.2.tests r.name (TestEntry.Simple TestState.passing) })
  | some TestState.pending, TestOutcome.Ignored => acc
  | some TestState.passing, TestOutcome.Passed => acc
  | some TestState.passing, TestOutcome.Failed =>
    (acc.1 ++ [Violation.Regression r.name], acc.2)
  | some TestState.passing, TestOutcome.Ignored => acc

/-- Disappearance check (src/src/ratchet.rs lines 104-109): every ledger
test name absent from the live outcome names is flagged, in key order. -/
def disappearedViolations (status : StatusFile) (results : List TestResult) : List Violation :=
  status.tests.filterMap (fun p =>
    if results.any (fun r => r.name == p.1) then none
    else some (Violation.TestDisappeared p.1))

/-- The ratchet evaluator (src/src/ratchet.rs `evaluate`): gatekeeper
presence, the per-test transition loop, disappearance, then the history
checker's findings, in that push order; the updated file is the transition
loop's output. -/
def evaluate (status : StatusFile) (results : List TestResult)
    (historySnapshots : List HistorySnapshot) : EvalResult :=
  { violations :=
      (if hasGatekeeper results then [] else [Violation.MissingGatekeeper]) ++
      (results.foldl (evalStep status) ([], status)).1 ++
      disappearedViolations status results ++
      (check_history_snapshots historySnapshots status.baseline.isSome).map
        (fun hv => match hv with
          | HistoryViolation.SkippedPending t c => Violation.SkippedPending t c),
    updated := (results.foldl (evalStep status) ([], status)).2 }

/-- Legacy violation type (src/src/ratchet.rs `RatchetViolation`). -/
inductive RatchetViolation where
  | NewTestPassed (test : String)
  | Regression (test : String)
  | TestDisappeared (test : String)
deriving DecidableEq, Repr

/-- Legacy result type (src/src/ratchet.rs `RatchetOutcome`). -/
structure RatchetOutcome where
  violations : List RatchetViolation
  updated : StatusFile
deriving DecidableEq, Repr

/-- One step of the legacy checker's loop (src/src/ratchet.rs lines
155-192), identical in its ledger effect to `evalStep`. -/
def checkRatchetStep (status : StatusFile) (acc : List RatchetViolation × StatusFile)
    (r : TestResult) : List RatchetViolation × StatusFile :=
  match (mapGet status.tests r.name).map TestEntry.state, r.outcome with
  | none, TestOutcome.Failed =>
    (acc.1, { acc.2 with tests := mapInsert acc.2.tests r.name (TestEntry.Simple TestState.pending) })
  | none, TestOutcome.Passed =>
    if strEndsWith r.name GATEKEEPER_TEST_NAME then
      (acc.1, { acc.2 with tests := mapInsert acc.2.tests r.name (TestEntry.Simple TestState.passing) })
    else
      (acc.1 ++ [RatchetViolation.NewTestPassed r.name], acc.2)
  | none, TestOutcome.Ignored => acc
  | some TestState.pending, TestOutcome.Failed => acc
  | some TestState.pending, TestOutcome.Passed =>
    (acc.1, { acc.2 with tests := mapInsert acc.2.tests r.name (TestEntry.Simple TestState.passing) })
  | some TestState.pending, TestOutcome.Ignored => acc
  | some TestState.passing, TestOutcome.Passed => acc
  | some TestState.passing, TestOutcome.Failed =>
    (acc.1 ++ [RatchetViolation.Regression r.name], acc.2)
  | some TestState.passing, TestOutcome.Ignored => acc

/-- Legacy disappearance check (src/src/ratchet.rs lines 194-198). -/
def legacyDisappeared (status : StatusFile) (results : List TestResult) :
    List RatchetViolation :=
  status.tests.filterMap (fun p =>
    if results.any (fun r => r.name == p.1) then none
    else some (RatchetViolation.TestDisappeared p.1))

/-- Legacy checker without history or gatekeeper (src/src/ratchet.rs
`check_ratchet`). -/
def check_ratchet (status : StatusFile) (results : List TestResult) : RatchetOutcome :=
  { violations :=
      (results.foldl (checkRatchetStep status) ([], status)).1 ++
      legacyDisappeared status results,
    updated := (results.foldl (checkRatchetStep status) ([], status)).2 }

/-- A JSON value, restricted to the shapes the status file uses. -/
inductive Json where
  | str (s : String)
  | obj (fields : List (String × Json))

/-- Serde serialization of a state (rename_all lowercase,
src/src/status.rs). -/
def TestState.toJsonStr : TestState → String
  | TestState.pending => "pending"
  | TestState.passing => "passing"

/-- Serde deserialization of a state (src/src/status.rs). -/
def TestState.fromStr (s : String) : Option TestState :=
  if s = "pending" then some TestState.pending
  else if s = "passing" then some TestState.passing
  else none

/-- Modelled from the spec: the serializer of `TestEntry`, whose Rust
definition is absent from the src/src/status.rs snapshot.  Spec 4.1: a
compact form (a bare state value) when no baseline is set, a structured
form with `state` and `baseline` members when one is present. -/
def TestEntry.toJson : TestEntry → Json
  | TestEntry.Simple s => Json.str s.toJsonStr
  | TestEntry.WithBaseline s b =>
    Json.obj [("state", Json.str s.toJsonStr), ("baseline", Json.str b)]

/-- Field loop of the structured-form entry deserializer: each of `state`
and `baseline` at most once, unknown per-entry members are a hard error
(closed schema, spec section 6), both members required at the end. -/
def entryFieldsFold : List (String × Json) → Option TestState → Option String → Option TestEntry
  | [], stAcc, bAcc =>
    match stAcc, bAcc with
    | some st, some b => some (TestEntry.WithBaseline st b)
    | _, _ => none
  | (k, v) :: rest, stAcc, bAcc =>
    if k = "state" then
      match stAcc, v with
      | none, Json.str s =>
        match TestState.fromStr s with
        | some st => entryFieldsFold rest (some st) bAcc
        | none => none
      | _, _ => none
    else if k = "baseline" then
      match bAcc, v with
      | none, Json.str b => entryFieldsFold rest stAcc (some b)
      | _, _ => none
    else none

/-- Modelled from the spec: the deserializer of `TestEntry`, whose Rust
definition is absent from the src/src/status.rs snapshot.  Both serialized
shapes (bare state string, or object with `state` and `baseline`) load
into the one in-memory representation (spec 4.1 and section 9). -/
def TestEntry.fromJson : Json → Option TestEntry
  | Json.str s => (TestState.fromStr s).map TestEntry.Simple
  | Json.obj fields => entryFieldsFold fields none none

/-- Deserialization of the `tests` map: entries are inserted in their
serialized order, as serde does when collecting into a `BTreeMap`. -/
def testsFromJson (fields : List (String × Json)) : Option (List (String × TestEntry)) :=
  fields.foldl
    (fun acc p =>
      match acc, TestEntry.fromJson p.2 with
      | some m, some e => some (mapInsert m p.1 e)
      | _, _ => none)
    (some [])

/-- Serde serialization of the status file (src/src/status.rs): fields in
declaration order, `$schema` and `baseline` skipped when absent, the test
map in its key order. -/
def StatusFile.toJson (sf : StatusFile) : Json :=
  Json.obj
    ((match sf.schema with
      | none => []
      | some u => [("$schema", Json.str u)]) ++
     [("tests", Json.obj (sf.tests.map (fun p => (p.1, p.2.toJson))))] ++
     (match sf.baseline with
      | none => []
      | some b => [("baseline", Json.str b)]))

/-- Field loop of the status-file deserializer with `deny_unknown_fields`
(src/src/status.rs): each known field at most once, any unknown field is a
hard error, `tests` is required, `$schema` and `baseline` default to
absent. -/
def statusFieldsFold : List (String × Json) → Option String →
    Option (List (String × TestEntry)) → Option String → Option StatusFile
  | [], schemaAcc, testsAcc, baselineAcc =>
    match testsAcc with
    | some t => some { schema := schemaAcc, tests := t, baseline := baselineAcc }
    | none => none
  | (k, v) :: rest, schemaAcc, testsAcc, baselineAcc =>
    if k = "$schema" then
      match schemaAcc, v with
      | none, Json.str s => statusFieldsFold rest (some s) testsAcc baselineAcc
      | _, _ => none
    else if k = "tests" then
      match testsAcc, v with
      | none, Json.obj fields =>
        match testsFromJson fields with
        | some t => statusFieldsFold rest schemaAcc (some t) baselineAcc
        | none => none
      | _, _ => none
    else if k = "baseline" then
      match baselineAcc, v with
      | none, Json.str b => statusFieldsFold rest schemaAcc testsAcc (some b)
      | _, _ => none
    else none

/-- Deserialization entry point: a status file is a JSON object
(src/src/status.rs `StatusFile::load`, minus the file IO). -/
def StatusFile.fromJson : Json → Option StatusFile
  | Json.obj fields => statusFieldsFold fields none none none
  | _ => none

/-- Save (src/src/status.rs `StatusFile::save`, minus the file IO): the
`$schema` key is always set to the canonical URL before serializing. -/
def StatusFile.save (sf : StatusFile) : Json :=
  StatusFile.toJson { sf with schema := some SCHEMA_URL }

/-- Load (src/src/status.rs `StatusFile::load`, minus the file IO). -/
def StatusFile.load (j : Json) : Option StatusFile :=
  StatusFile.fromJson j

/-- First recorded appearance of a test across the snapshot sequence,
oldest snapshot first: its commit and its state there (spec 4.3). -/
def firstSeenIn : List HistorySnapshot → String → Option (String × TestState)
  | [], _ => none
  | snap :: rest, n =>
    match mapGet snap.status.tests n with
    | some e => some (snap.commit, e.state)
    | none => firstSeenIn rest n

/-- Transition table of the spec (4.4 step 2), ledger column: the entry a
test holds after its live outcome is applied, given its prior entry. -/
def specTransitionEntry (prior : Option TestEntry) (r : TestResult) : Option TestEntry :=
  match prior.map TestEntry.state, r.outcome with
  | none, TestOutcome.Failed => some (TestEntry.Simple TestState.pending)
  | none, TestOutcome.Passed =>
    if strEndsWith r.name GATEKEEPER_TEST_NAME then some (TestEntry.Simple TestState.passing)
    else none
  | none, TestOutcome.Ignored => none
  | some TestState.pending, TestOutcome.Passed => some (TestEntry.Simple TestState.passing)
  | some TestState.pending, _ => prior
  | some TestState.passing, _ => prior

/-- Transition table of the spec (4.4 step 2), violation column: the
transition violations attributable to one test's live outcome. -/
def specTransitionViolations (priorState : Option TestState) (r : TestResult) : List Violation :=
  match priorState, r.outcome with
  | none, TestOutcome.Passed =>
    if strEndsWith r.name GATEKEEPER_TEST_NAME then []
    else [Violation.NewTestPassed r.name]
  | some TestState.passing, TestOutcome.Failed => [Violation.Regression r.name]
  | _, _ => []

/-- Violations of the per-test transition table that concern one test name:
its `NewTestPassed` and `Regression` entries. -/
def transFilter (n : String) (vs : List Violation) : List Violation :=
  vs.filter (fun v =>
    match v with
    | Violation.NewTestPassed t => t == n
    | Violation.Regression t => t == n
    | _ => false)

theorem charListLt_irrefl (l : List Char) : charListLt l l = false := by
  induction l with
  | nil => rfl
  | cons a as ih => simp [charListLt, ih]

theorem charListLt_asymm {l₁ l₂ : List Char} (h : charListLt l₁ l₂ = true) :
    charListLt l₂ l₁ = false := by
  induction l₁ generalizing l₂ with
  | nil =>
    cases l₂ with
    | nil => rfl
    | cons b bs => rfl
  | cons a as ih =>
    cases l₂ with
    | nil => simp [charListLt] at h
    | cons b bs =>
      rw [Bool.eq_false_iff]
      intro h2
      simp only [charListLt, Bool.or_eq_true, Bool.and_eq_true, decide_eq_true_eq] at h h2
      rcases h with h | ⟨heq, hrec⟩ <;> rcases h2 with h2 | ⟨heq2, hrec2⟩
      · omega
      · omega
      · omega
      · have h3 := ih hrec
        rw [hrec2] at h3
        exact absurd h3 (by simp)

theorem strLt_irrefl (s : String) : strLt s s = false := charListLt_irrefl _

theorem strLt_asymm {a b : String} (h : strLt a b = true) : strLt b a = false :=
  charListLt_asymm h

theorem strLt_ne {a b : String} (h : strLt a b = true) : a ≠ b := by
  intro he
  subst he
  rw [strLt_irrefl] at h
  exact Bool.false_ne_true h

theorem mapGet_mapInsert {α : Type} (m : List (String × α)) (k k' : String) (v : α) :
    mapGet (mapInsert m k v) k' = if k = k' then some v else mapGet m k' := by
  induction m with
  | nil =>
    by_cases h2 : k = k'
    · subst h2; simp [mapInsert, mapGet]
    · simp [mapInsert, mapGet, h2, Ne.symm h2]
  | cons p rest ih =>
    obtain ⟨k₀, v₀⟩ := p
    by_cases h1 : strLt k k₀
    · by_cases h2 : k = k'
      · subst h2; simp [mapInsert, h1, mapGet]
      · simp [mapInsert, h1, mapGet, h2, Ne.symm h2]
    · by_cases h2 : k = k₀
      · subst h2
        by_cases h3 : k = k'
        · subst h3; simp [mapInsert, h1, mapGet]
        · simp [mapInsert, h1, mapGet, h3, Ne.symm h3]
      · by_cases h3 : k₀ = k'
        · subst h3
          simp [mapInsert, h1, h2, mapGet, ih, Ne.symm h2]
        · simp [mapInsert, h1, h2, mapGet, h3, ih]

theorem mapInsert_gt {α : Type} (m : List (String × α)) (k : String) (v : α)
    (h : ∀ p ∈ m, strLt p.1 k = true) : mapInsert m k v = m ++ [(k, v)] := by
  induction m with
  | nil => rfl
  | cons p rest ih =>
    obtain ⟨k₀, v₀⟩ := p
    have h0 : strLt k₀ k = true := h (k₀, v₀) (List.mem_cons_self _ _)
    have hn : ¬ (strLt k k₀ = true) := by simp [strLt_asymm h0]
    have he : k ≠ k₀ := fun hh => strLt_ne h0 hh.symm
    simp [mapInsert, hn, he, ih (fun q hq => h q (List.mem_cons_of_mem _ hq))]

theorem mapGet_eq_none_of_keys_ne {α : Type} (m : List (String × α)) (n : String)
    (h : ∀ p ∈ m, p.1 ≠ n) : mapGet m n = none := by
  induction m with
  | nil => rfl
  | cons p rest ih =>
    obtain ⟨k, v⟩ := p
    have hk : k ≠ n := h (k, v) (List.mem_cons_self _ _)
    simp [mapGet, hk, ih (fun q hq => h q (List.mem_cons_of_mem _ hq))]

theorem evalStep_decomp (s : StatusFile) (vs : List Violation) (u : StatusFile) (r : TestResult) :
    evalStep s (vs, u) r = (vs ++ (evalStep s ([], u) r).1, (evalStep s ([], u) r).2) := by
  obtain ⟨rn, ro⟩ := r
  rcases hm : (mapGet s.tests rn).map TestEntry.state with _ | st
  · cases ro <;>
      by_cases hg : strEndsWith rn GATEKEEPER_TEST_NAME = true <;>
      simp [evalStep, hm, hg]
  · cases st <;> cases ro <;> simp [evalStep, hm]

theorem evalFold_decomp (s : StatusFile) (rs : List TestResult) (vs : List Violation)
    (u : StatusFile) :
    rs.foldl (evalStep s) (vs, u) =
      (vs ++ (rs.foldl (evalStep s) ([], u)).1, (rs.foldl (evalStep s) ([], u)).2) := by
  induction rs generalizing vs u with
  | nil => simp
  | cons r rs ih =>
    simp only [List.foldl_cons]
    rw [evalStep_decomp s vs u r]
    rw [ih (vs ++ (evalStep s ([], u) r).1) (evalStep s ([], u) r).2]
    rw [show evalStep s ([], u) r = ((evalStep s ([], u) r).1, (evalStep s ([], u) r).2) from rfl]
    rw [ih (evalStep s ([], u) r).1 (evalStep s ([], u) r).2]
    simp

theorem evalStep_get_other (s : StatusFile) (vs : List Violation) (u : StatusFile)
    (r : TestResult) (n : String) (h : r.name ≠ n) :
    mapGet (evalStep s (vs, u) r).2.tests n = mapGet u.tests n := by
  obtain ⟨rn, ro⟩ := r
  replace h : rn ≠ n := h
  rcases hm : (mapGet s.tests rn).map TestEntry.state with _ | st
  · cases ro <;>
      by_cases hg : strEndsWith rn GATEKEEPER_TEST_NAME = true <;>
      simp [evalStep, hm, hg, mapGet_mapInsert, h]
  · cases st <;> cases ro <;> simp [evalStep, hm, mapGet_mapInsert, h]

theorem transFilter_append (n : String) (vs ws : List Violation) :
    transFilter n (vs ++ ws) = transFilter n vs ++ transFilter n ws := by
  simp [transFilter]

theorem evalStep_transFilter_other (s : StatusFile) (vs : List Violation) (u : StatusFile)
    (r : TestResult) (n : String) (h : r.name ≠ n) :
    transFilter n (evalStep s (vs, u) r).1 = transFilter n vs := by
  obtain ⟨rn, ro⟩ := r
  replace h : rn ≠ n := h
  rcases hm : (mapGet s.tests rn).map TestEntry.state with _ | st
  · cases ro <;>
      by_cases hg : strEndsWith rn GATEKEEPER_TEST_NAME = true <;>
      simp [evalStep, hm, hg, transFilter, h]
  · cases st <;> cases ro <;> simp [evalStep, hm, transFilter, h]

theorem evalFold_other (s : StatusFile) (rs : List TestResult) (vs : List Violation)
    (u : StatusFile) (n : String) (h : ∀ r ∈ rs, r.name ≠ n) :
    mapGet (rs.foldl (evalStep s) (vs, u)).2.tests n = mapGet u.tests n ∧
      transFilter n (rs.foldl (evalStep s) (vs, u)).1 = transFilter n vs := by
  induction rs generalizing vs u with
  | nil => simp
  | cons r rs ih =>
    have hr : r.name ≠ n := h r (List.mem_cons_self _ _)
    have hrest : ∀ r' ∈ rs, r'.name ≠ n := fun r' hr' => h r' (List.mem_cons_of_mem _ hr')
    simp only [List.foldl_cons]
    rw [show evalStep s (vs, u) r = ((evalStep s (vs, u) r).1, (evalStep s (vs, u) r).2) from rfl]
    obtain ⟨ih1, ih2⟩ := ih (evalStep s (vs, u) r).1 (evalStep s (vs, u) r).2 hrest
    constructor
    · rw [ih1, evalStep_get_other s vs u r n hr]
    · rw [ih2, evalStep_transFilter_other s vs u r n hr]

theorem evalStep_at_name (s : StatusFile) (vs : List Violation) (u : StatusFile) (r : TestResult)
    (hu : mapGet u.tests r.name = mapGet s.tests r.name) :
    mapGet (evalStep s (vs, u) r).2.tests r.name = specTransitionEntry (mapGet s.tests r.name) r ∧
      (evalStep s (vs, u) r).1 =
        vs ++ specTransitionViolations ((mapGet s.tests r.name).map TestEntry.state) r := by
  obtain ⟨rn, ro⟩ := r
  rcases hm : mapGet s.tests rn with _ | e
  · rw [hm] at hu
    cases ro <;>
      by_cases hg : strEndsWith rn GATEKEEPER_TEST_NAME = true <;>
      simp [evalStep, specTransitionEntry, specTransitionViolations, hm, hu, hg, mapGet_mapInsert]
  · rw [hm] at hu
    rcases e with st | ⟨st, b⟩ <;> cases st <;> cases ro <;>
      simp [evalStep, specTransitionEntry, specTransitionViolations, TestEntry.state, hm, hu,
        mapGet_mapInsert]

theorem stepSnd_eq (s : StatusFile) (vs : List Violation) (ws : List RatchetViolation)
    (u : StatusFile) (r : TestResult) :
    (evalStep s (vs, u) r).2 = (checkRatchetStep s (ws, u) r).2 := by
  obtain ⟨rn, ro⟩ := r
  rcases hm : (mapGet s.tests rn).map TestEntry.state with _ | st
  · cases ro <;>
      by_cases hg : strEndsWith rn GATEKEEPER_TEST_NAME = true <;>
      simp [evalStep, checkRatchetStep, hm, hg]
  · cases st <;> cases ro <;> simp [evalStep, checkRatchetStep, hm]

theorem foldSnd_eq (s : StatusFile) (rs : List TestResult) (vs : List Violation)
    (ws : List RatchetViolation) (u : StatusFile) :
    (rs.foldl (evalStep s) (vs, u)).2 = (rs.foldl (checkRatchetStep s) (ws, u)).2 := by
  induction rs generalizing vs ws u with
  | nil => rfl
  | cons r rs ih =>
    simp only [List.foldl_cons]
    rw [show evalStep s (vs, u) r = ((evalStep s (vs, u) r).1, (evalStep s (vs, u) r).2) from rfl]
    rw [show checkRatchetStep s (ws, u) r =
      ((checkRatchetStep s (ws, u) r).1, (checkRatchetStep s (ws, u) r).2) from rfl]
    rw [stepSnd_eq s vs ws u r]
    exact ih _ _ _

theorem evalStep_nil_fst_shape (s : StatusFile) (u : StatusFile) (r : TestResult)
    (v : Violation) (hv : v ∈ (evalStep s ([], u) r).1) :
    ∃ t, v = Violation.NewTestPassed t ∨ v = Violation.Regression t := by
  obtain ⟨rn, ro⟩ := r
  rcases hm : (mapGet s.tests rn).map TestEntry.state with _ | st
  · cases ro <;>
      by_cases hg : strEndsWith rn GATEKEEPER_TEST_NAME = true <;>
      simp [evalStep, hm, hg] at hv <;>
      exact ⟨rn, by simp [hv]⟩
  · cases st <;> cases ro <;> simp [evalStep, hm] at hv <;> exact ⟨rn, by simp [hv]⟩

theorem evalFold_mem_shape (s : StatusFile) (rs : List TestResult) (vs : List Violation)
    (u : StatusFile) (v : Violation) (hv : v ∈ (rs.foldl (evalStep s) (vs, u)).1) :
    v ∈ vs ∨ ∃ t, v = Violation.NewTestPassed t ∨ v = Violation.Regression t := by
  induction rs generalizing vs u with
  | nil => exact Or.inl hv
  | cons r rs ih =>
    simp only [List.foldl_cons] at hv
    rw [evalStep_decomp s vs u r] at hv
    rcases ih _ _ hv with h | h
    · rcases List.mem_append.mp h with h' | h'
      · exact Or.inl h'
      · exact Or.inr (evalStep_nil_fst_shape s u r v h')
    · exact Or.inr h

theorem disappeared_shape (s : StatusFile) (rs : List TestResult) (v : Violation)
    (hv : v ∈ disappearedViolations s rs) : ∃ t, v = Violation.TestDisappeared t := by
  obtain ⟨p, _, hp⟩ := List.mem_filterMap.mp hv
  by_cases h : rs.any (fun r => r.name == p.1) = true
  · simp [h] at hp
  · simp [h] at hp
    exact ⟨p.1, hp.symm⟩

theorem histMapped_shape (l : List HistoryViolation) (v : Violation)
    (hv : v ∈ l.map (fun hv => match hv with
      | HistoryViolation.SkippedPending t c => Violation.SkippedPending t c)) :
    ∃ t c, v = Violation.SkippedPending t c := by
  obtain ⟨hv', _, heq⟩ := List.mem_map.mp hv
  obtain ⟨t, c⟩ := hv'
  exact ⟨t, c, heq.symm⟩

theorem count_disappeared_aux (rs : List TestResult) (n : String) (l : List (String × TestEntry))
    (hs : List.Pairwise (fun p q => strLt p.1 q.1 = true) l) :
    List.count (Violation.TestDisappeared n)
        (l.filterMap (fun p =>
          if rs.any (fun r => r.name == p.1) then none
          else some (Violation.TestDisappeared p.1))) =
      if (mapGet l n).isSome = true ∧ ¬ (∃ r ∈ rs, r.name = n) then 1 else 0 := by
  induction l with
  | nil => simp [mapGet]
  | cons p rest ih =>
    obtain ⟨k, e⟩ := p
    have hkeys : ∀ q ∈ rest, strLt k q.1 = true := fun q hq => (List.pairwise_cons.mp hs).1 q hq
    have hrest := ih (List.pairwise_cons.mp hs).2
    simp only [List.any_eq_true, beq_iff_eq, not_exists, not_and] at hrest
    have hnone : mapGet rest k = none :=
      mapGet_eq_none_of_keys_ne rest k (fun q hq => Ne.symm (strLt_ne (hkeys q hq)))
    by_cases hseen : ∃ r ∈ rs, r.name = k
    · by_cases hkn : k = n
      · subst hkn
        simp [List.filterMap_cons, hseen, hrest, hnone, mapGet]
      · simp [List.filterMap_cons, hseen, hrest, mapGet, hkn]
    · by_cases hkn : k = n
      · subst hkn
        simp [List.filterMap_cons, hseen, List.count_cons, hrest, hnone, mapGet]
      · simp [List.filterMap_cons, hseen, List.count_cons, hrest, mapGet, hkn, Ne.symm hkn]

theorem count_disappeared (s : StatusFile) (rs : List TestResult) (n : String)
    (hs : SortedKeys s.tests) :
    List.count (Violation.TestDisappeared n) (disappearedViolations s rs) =
      if (mapGet s.tests n).isSome = true ∧ ¬ (∃ r ∈ rs, r.name = n) then 1 else 0 :=
  count_disappeared_aux rs n s.tests hs
theorem historyScanTests_cons_seen (fsc : Option String) (ptb : List (String × String))
    (cidx : List (String × Nat)) (commit : String)
    (fs : List (String × (String × TestState))) (vs : List HistoryViolation)
    (tn : String) (entry : TestEntry) (rest : List (String × TestEntry))
    (h : (mapGet fs tn).isSome = true) :
    historyScanTests fsc ptb cidx commit (fs, vs) ((tn, entry) :: rest) =
      historyScanTests fsc ptb cidx commit (fs, vs) rest := by
  simp [historyScanTests, h]

theorem historyScanTests_cons_new (fsc : Option String) (ptb : List (String × String))
    (cidx : List (String × Nat)) (commit : String)
    (fs : List (String × (String × TestState))) (vs : List HistoryViolation)
    (tn : String) (entry : TestEntry) (rest : List (String × TestEntry))
    (h : (mapGet fs tn).isSome = false) :
    historyScanTests fsc ptb cidx commit (fs, vs) ((tn, entry) :: rest) =
      historyScanTests fsc ptb cidx commit
        (mapInsert fs tn (commit, entry.state),
         if entry.state = TestState.passing ∧ histExemptCond fsc ptb cidx tn commit = false
         then vs ++ [HistoryViolation.SkippedPending tn commit]
         else vs) rest := by
  simp [historyScanTests, h]

theorem scanTests_fst_some (fsc : Option String) (ptb : List (String × String))
    (cidx : List (String × Nat)) (commit : String) (tests : List (String × TestEntry)) :
    ∀ (fs : List (String × (String × TestState))) (vs : List HistoryViolation)
      (n : String) (x : String × TestState), mapGet fs n = some x →
      mapGet (historyScanTests fsc ptb cidx commit (fs, vs) tests).1 n = some x := by
  induction tests with
  | nil => intro fs vs n x h; simpa [historyScanTests] using h
  | cons p rest ih =>
    intro fs vs n x h
    obtain ⟨tn, entry⟩ := p
    cases hseen : (mapGet fs tn).isSome with
    | true =>
      rw [historyScanTests_cons_seen fsc ptb cidx commit fs vs tn entry rest hseen]
      exact ih fs vs n x h
    | false =>
      have htn : tn ≠ n := by
        intro he; subst he; rw [h] at hseen; simp at hseen
      rw [historyScanTests_cons_new fsc ptb cidx commit fs vs tn entry rest hseen]
      apply ih
      rw [mapGet_mapInsert]
      simp [htn, h]

theorem scanTests_fst_none (fsc : Option String) (ptb : List (String × String))
    (cidx : List (String × Nat)) (commit : String) (tests : List (String × TestEntry)) :
    ∀ (fs : List (String × (String × TestState))) (vs : List HistoryViolation)
      (n : String), mapGet fs n = none →
      mapGet (historyScanTests fsc ptb cidx commit (fs, vs) tests).1 n =
        (mapGet tests n).map (fun e => (commit, e.state)) := by
  induction tests with
  | nil => intro fs vs n h; simpa [historyScanTests, mapGet] using h
  | cons p rest ih =>
    intro fs vs n h
    obtain ⟨tn, entry⟩ := p
    by_cases htn : tn = n
    · subst htn
      have hseen : (mapGet fs tn).isSome = false := by simp [h]
      rw [historyScanTests_cons_new fsc ptb cidx commit fs vs tn entry rest hseen]
      rw [scanTests_fst_some fsc ptb cidx commit rest _ _ tn (commit, entry.state)
        (by rw [mapGet_mapInsert]; simp)]
      simp [mapGet]
    · cases hseen : (mapGet fs tn).isSome with
      | true =>
        rw [historyScanTests_cons_seen fsc ptb cidx commit fs vs tn entry rest hseen]
        rw [ih fs vs n h]
        simp [mapGet, htn]
      | false =>
        rw [historyScanTests_cons_new fsc ptb cidx commit fs vs tn entry rest hseen]
        rw [ih _ _ n (by rw [mapGet_mapInsert]; simp [htn, h])]
        simp [mapGet, htn]

theorem scanTests_snd_mem (fsc : Option String) (ptb : List (String × String))
    (cidx : List (String × Nat)) (commit : String) (tests : List (String × TestEntry)) :
    ∀ (fs : List (String × (String × TestState))) (vs : List HistoryViolation)
      (n c : String),
      (HistoryViolation.SkippedPending n c ∈
          (historyScanTests fsc ptb cidx commit (fs, vs) tests).2) ↔
        (HistoryViolation.SkippedPending n c ∈ vs ∨
          (c = commit ∧ mapGet fs n = none ∧
            ∃ e, mapGet tests n = some e ∧ e.state = TestState.passing ∧
              histExemptCond fsc ptb cidx n commit = false)) := by
  induction tests with
  | nil =>
    intro fs vs n c
    simp [historyScanTests, mapGet]
  | cons p rest ih =>
    intro fs vs n c
    obtain ⟨tn, entry⟩ := p
    cases hseen : (mapGet fs tn).isSome with
    | true =>
      rw [historyScanTests_cons_seen fsc ptb cidx commit fs vs tn entry rest hseen]
      rw [ih fs vs n c]
      obtain ⟨x, hx⟩ := Option.isSome_iff_exists.mp hseen
      by_cases htn : tn = n
      · subst htn
        simp [hx, mapGet]
      · simp [mapGet, htn]
    | false =>
      have hfsn : mapGet fs tn = none := by
        rcases hy : mapGet fs tn with _ | y
        · rfl
        · rw [hy] at hseen; simp at hseen
      rw [historyScanTests_cons_new fsc ptb cidx commit fs vs tn entry rest hseen]
      rw [ih]
      by_cases htn : tn = n
      · subst htn
        by_cases hpush : entry.state = TestState.passing ∧
            histExemptCond fsc ptb cidx tn commit = false
        · rw [if_pos hpush]
          simp [mapGet, mapGet_mapInsert, hfsn, hpush.1, hpush.2]
        · rw [if_neg hpush]
          simp [mapGet, mapGet_mapInsert, hfsn, hpush]
      · by_cases hpush : entry.state = TestState.passing ∧
            histExemptCond fsc ptb cidx tn commit = false
        · rw [if_pos hpush]
          simp [mapGet, mapGet_mapInsert, htn, Ne.symm htn]
        · rw [if_neg hpush]
          simp [mapGet, mapGet_mapInsert, htn]

theorem scanSnapshots_snd_mem (fsc : Option String) (ptb : List (String × String))
    (cidx : List (String × Nat)) (snaps : List HistorySnapshot) :
    ∀ (fs : List (String × (String × TestState))) (vs : List HistoryViolation) (n c : String),
      (HistoryViolation.SkippedPending n c ∈
          (historyScanSnapshots fsc ptb cidx (fs, vs) snaps).2) ↔
        (HistoryViolation.SkippedPending n c ∈ vs ∨
          (mapGet fs n = none ∧ firstSeenIn snaps n = some (c, TestState.passing) ∧
            histExemptCond fsc ptb cidx n c = false)) := by
  induction snaps with
  | nil =>
    intro fs vs n c
    simp [historyScanSnapshots, firstSeenIn]
  | cons snap rest ih =>
    intro fs vs n c
    have hunfold : historyScanSnapshots fsc ptb cidx (fs, vs) (snap :: rest) =
        historyScanSnapshots fsc ptb cidx
          ((historyScanTests fsc ptb cidx snap.commit (fs, vs) snap.status.tests).1,
           (historyScanTests fsc ptb cidx snap.commit (fs, vs) snap.status.tests).2) rest := rfl
    rw [hunfold, ih, scanTests_snd_mem]
    rcases hfs : mapGet fs n with _ | x
    · rw [scanTests_fst_none fsc ptb cidx snap.commit snap.status.tests fs vs n hfs]
      rcases hget : mapGet snap.status.tests n with _ | e
      · simp [hget, firstSeenIn]
      · simp [hget, firstSeenIn]
        apply or_congr_right
        constructor
        · rintro ⟨h1, h2, h3⟩
          subst h1
          exact ⟨⟨rfl, h2⟩, h3⟩
        · rintro ⟨⟨h1, h2⟩, h3⟩
          subst h1
          exact ⟨rfl, h2, h3⟩
    · rw [scanTests_fst_some fsc ptb cidx snap.commit snap.status.tests fs vs n x hfs]
      simp [hfs]

theorem check_history_mem (snaps : List HistorySnapshot) (hb : Bool) (n c : String) :
    HistoryViolation.SkippedPending n c ∈ check_history_snapshots snaps hb ↔
      (firstSeenIn snaps n = some (c, TestState.passing) ∧
        histExemptCond (firstSnapshotCommit snaps hb) (perTestBaselines snaps)
          (commitIndex snaps) n c = false) := by
  unfold check_history_snapshots
  rw [scanSnapshots_snd_mem]
  simp [mapGet]

theorem entry_roundtrip (e : TestEntry) : TestEntry.fromJson (TestEntry.toJson e) = some e := by
  rcases e with st | ⟨st, b⟩ <;> cases st <;> rfl

theorem testsFromJson_go (m acc : List (String × TestEntry))
    (hs : SortedKeys (acc ++ m)) :
    (m.map (fun p => (p.1, p.2.toJson))).foldl
      (fun a p =>
        match a, TestEntry.fromJson p.2 with
        | some mm, some e => some (mapInsert mm p.1 e)
        | _, _ => none)
      (some acc) = some (acc ++ m) := by
  induction m generalizing acc with
  | nil => simp
  | cons p rest ih =>
    obtain ⟨k, e⟩ := p
    have hlt : ∀ q ∈ acc, strLt q.1 k = true := by
      intro q hq
      have := (List.pairwise_append.mp hs).2.2 q hq (k, e) (List.mem_cons_self _ _)
      exact this
    simp only [List.map_cons, List.foldl_cons, entry_roundtrip]
    rw [mapInsert_gt acc k e hlt]
    have hs' : SortedKeys ((acc ++ [(k, e)]) ++ rest) := by
      have : (acc ++ [(k, e)]) ++ rest = acc ++ ((k, e) :: rest) := by simp
      rw [this]
      exact hs
    have := ih (acc ++ [(k, e)]) hs'
    simpa using this

theorem testsFromJson_roundtrip (m : List (String × TestEntry)) (hs : SortedKeys m) :
    testsFromJson (m.map (fun p => (p.1, p.2.toJson))) = some m := by
  have := testsFromJson_go m [] (by simpa using hs)
  simpa [testsFromJson] using this

theorem statusFieldsFold_schema (rest : List (String × Json)) (tAcc : Option (List (String × TestEntry)))
    (bAcc : Option String) (u : String) :
    statusFieldsFold (("$schema", Json.str u) :: rest) none tAcc bAcc =
      statusFieldsFold rest (some u) tAcc bAcc := rfl

theorem statusFieldsFold_tests (rest : List (String × Json)) (sAcc : Option String)
    (bAcc : Option String) (fields : List (String × Json)) :
    statusFieldsFold (("tests", Json.obj fields) :: rest) sAcc none bAcc =
      (match testsFromJson fields with
       | some t => statusFieldsFold rest sAcc (some t) bAcc
       | none => none) := rfl

theorem statusFieldsFold_baseline (rest : List (String × Json)) (sAcc : Option String)
    (tAcc : Option (List (String × TestEntry))) (b : String) :
    statusFieldsFold (("baseline", Json.str b) :: rest) sAcc tAcc none =
      statusFieldsFold rest sAcc tAcc (some b) := rfl

theorem statusFieldsFold_nil (sAcc : Option String) (t : List (String × TestEntry))
    (bAcc : Option String) :
    statusFieldsFold [] sAcc (some t) bAcc =
      some { schema := sAcc, tests := t, baseline := bAcc } := rfl

theorem load_obj (fields : List (String × Json)) :
    StatusFile.load (Json.obj fields) = statusFieldsFold fields none none none := rfl

theorem load_save (x : StatusFile) (hs : SortedKeys x.tests) :
    StatusFile.load (StatusFile.save x) =
      some { schema := some SCHEMA_URL, tests := x.tests, baseline := x.baseline } := by
  rcases hb : x.baseline with _ | b
  · have h1 : StatusFile.save x =
        Json.obj [("$schema", Json.str SCHEMA_URL),
          ("tests", Json.obj (x.tests.map (fun p => (p.1, p.2.toJson))))] := by
      simp [StatusFile.save, StatusFile.toJson, hb]
    rw [h1, load_obj, statusFieldsFold_schema, statusFieldsFold_tests,
      testsFromJson_roundtrip x.tests hs]
    exact statusFieldsFold_nil _ _ _
  · have h1 : StatusFile.save x =
        Json.obj [("$schema", Json.str SCHEMA_URL),
          ("tests", Json.obj (x.tests.map (fun p => (p.1, p.2.toJson)))),
          ("baseline", Json.str b)] := by
      simp [StatusFile.save, StatusFile.toJson, hb]
    rw [h1, load_obj, statusFieldsFold_schema, statusFieldsFold_tests,
      testsFromJson_roundtrip x.tests hs]
    rw [show (match (some x.tests : Option (List (String × TestEntry))) with
       | some t => statusFieldsFold [("baseline", Json.str b)] (some SCHEMA_URL) (some t) none
       | none => none) =
      statusFieldsFold [("baseline", Json.str b)] (some SCHEMA_URL) (some x.tests) none from rfl]
    rw [statusFieldsFold_baseline]
    exact statusFieldsFold_nil _ _ _

theorem notMem_T (s : StatusFile) (rs : List TestResult) (v : Violation)
    (hv : v ∈ (rs.foldl (evalStep s) (([] : List Violation), s)).1) :
    ∃ t, v = Violation.NewTestPassed t ∨ v = Violation.Regression t := by
  rcases evalFold_mem_shape s rs [] s v hv with h' | h'
  · simp at h'
  · exact h'

theorem missingGk_notMem_rest (s : StatusFile) (rs : List TestResult)
    (h : List HistorySnapshot) (v : Violation)
    (hv : v ∈ (rs.foldl (evalStep s) (([] : List Violation), s)).1 ++
      disappearedViolations s rs ++
      (check_history_snapshots h s.baseline.isSome).map
        (fun hv => match hv with
          | HistoryViolation.SkippedPending t c => Violation.SkippedPending t c)) :
    v ≠ Violation.MissingGatekeeper := by
  rcases List.mem_append.mp hv with hv' | hv'
  · rcases List.mem_append.mp hv' with hv'' | hv''
    · obtain ⟨t, ht⟩ := notMem_T s rs v hv''
      rcases ht with ht | ht <;> simp [ht]
    · obtain ⟨t, ht⟩ := disappeared_shape s rs v hv''
      simp [ht]
  · obtain ⟨t, c, ht⟩ := histMapped_shape _ v hv'
    simp [ht]

theorem evaluate_violations_eq (s : StatusFile) (rs : List TestResult)
    (h : List HistorySnapshot) :
    (evaluate s rs h).violations =
      (if hasGatekeeper rs then ([] : List Violation) else [Violation.MissingGatekeeper]) ++
      ((rs.foldl (evalStep s) (([] : List Violation), s)).1 ++
        disappearedViolations s rs ++
        (check_history_snapshots h s.baseline.isSome).map
          (fun hv => match hv with
            | HistoryViolation.SkippedPending t c => Violation.SkippedPending t c)) := by
  unfold evaluate
  simp [List.append_assoc]

theorem evaluate_missingGk_iff (s : StatusFile) (rs : List TestResult)
    (h : List HistorySnapshot) :
    Violation.MissingGatekeeper ∈ (evaluate s rs h).violations ↔ hasGatekeeper rs = false := by
  rw [evaluate_violations_eq, List.mem_append]
  constructor
  · rintro (hm | hm)
    · by_cases hg : hasGatekeeper rs
      · simp [hg] at hm
      · simpa using hg
    · exact absurd rfl (missingGk_notMem_rest s rs h _ (by
        simpa [List.append_assoc] using hm))
  · intro hg
    simp [hg]

theorem transFilter_eq_nil_of_shape (n : String) (l : List Violation)
    (hl : ∀ v ∈ l, (∃ t, v = Violation.TestDisappeared t) ∨
      (∃ t c, v = Violation.SkippedPending t c) ∨ v = Violation.MissingGatekeeper) :
    transFilter n l = [] := by
  rw [transFilter, List.filter_eq_nil]
  intro v hv
  rcases hl v hv with ⟨t, ht⟩ | ⟨t, c, ht⟩ | ht <;> subst ht <;> simp

theorem commitIndex_fold_isSome (l : List (Nat × HistorySnapshot)) (c : String) :
    ∀ (acc : List (String × Nat)),
      (c ∈ l.map (fun p => p.2.commit) ∨ (mapGet acc c).isSome = true) →
      (mapGet (l.foldl (fun m p => mapInsert m p.2.commit p.1) acc) c).isSome = true := by
  induction l with
  | nil =>
    intro acc h
    rcases h with h | h
    · simp at h
    · simpa using h
  | cons p rest ih =>
    intro acc h
    simp only [List.map_cons, List.mem_cons] at h
    rw [List.foldl_cons]
    apply ih
    rcases h with (h' | h') | h'
    · right
      rw [mapGet_mapInsert]
      simp [h']
    · left
      exact h'
    · right
      rw [mapGet_mapInsert]
      by_cases he : p.2.commit = c <;> simp [he, h']

theorem commitIndex_isSome (snaps : List HistorySnapshot) (c : String)
    (h : c ∈ snaps.map HistorySnapshot.commit) :
    (mapGet (commitIndex snaps) c).isSome = true := by
  apply commitIndex_fold_isSome
  left
  have heq : (snaps.enum).map (fun p => p.2.commit) = snaps.map HistorySnapshot.commit := by
    rw [show (fun p : Nat × HistorySnapshot => p.2.commit) =
      (HistorySnapshot.commit ∘ Prod.snd) from rfl]
    rw [← List.map_map, List.enum_map_snd]
  rw [heq]
  exact h

theorem firstSeenIn_mem_commits (snaps : List HistorySnapshot) (n c : String)
    (st : TestState) (h : firstSeenIn snaps n = some (c, st)) :
    c ∈ snaps.map HistorySnapshot.commit := by
  induction snaps with
  | nil => simp [firstSeenIn] at h
  | cons snap rest ih =>
    rcases hget : mapGet snap.status.tests n with _ | e
    · rw [firstSeenIn, hget] at h
      exact List.mem_cons_of_mem _ (ih h)
    · rw [firstSeenIn, hget] at h
      simp only [Option.some.injEq, Prod.mk.injEq] at h
      simp [h.1.symm]

theorem transFilter_gklist (n : String) (g : Bool) :
    transFilter n (if g then ([] : List Violation) else [Violation.MissingGatekeeper]) = [] := by
  cases g <;> simp [transFilter]

theorem transFilter_disappeared (s : StatusFile) (rs : List TestResult) (n : String) :
    transFilter n (disappearedViolations s rs) = [] := by
  apply transFilter_eq_nil_of_shape
  intro v hv
  obtain ⟨t, ht⟩ := disappeared_shape s rs v hv
  exact Or.inl ⟨t, ht⟩

theorem transFilter_hist (l : List HistoryViolation) (n : String) :
    transFilter n (l.map (fun hv => match hv with
      | HistoryViolation.SkippedPending t c => Violation.SkippedPending t c)) = [] := by
  apply transFilter_eq_nil_of_shape
  intro v hv
  obtain ⟨t, c, ht⟩ := histMapped_shape l v hv
  exact Or.inr (Or.inl ⟨t, c, ht⟩)

theorem transFilter_specViols (ps : Option TestState) (r : TestResult) :
    transFilter r.name (specTransitionViolations ps r) = specTransitionViolations ps r := by
  obtain ⟨rn, ro⟩ := r
  rcases ps with _ | st
  · cases ro <;>
      by_cases hg : strEndsWith rn GATEKEEPER_TEST_NAME = true <;>
      simp [specTransitionViolations, transFilter, hg]
  · cases st <;> cases ro <;> simp [specTransitionViolations, transFilter]

/-- C1: for every test named in the live outcomes (named there exactly once,
as a test runner reports), `evaluate` applies exactly the per-test
transition table of the spec against the current ledger: the test's
resulting ledger entry is `specTransitionEntry` of its prior entry, and the
transition violations attributable to it (`NewTestPassed`/`Regression`) are
exactly `specTransitionViolations` of its prior state — absent plus Failed
adds it as pending with no violation, absent plus Passed (non-gatekeeper)
is `NewTestPassed` with the ledger unchanged for that test, absent plus
Ignored is no change, pending plus Passed promotes to passing, pending
plus Failed or Ignored is unchanged without violation, passing plus Failed
is a `Regression` with the ledger state staying passing, and passing plus
Passed or Ignored is unchanged. -/
theorem c1_transition_table (s : StatusFile) (h : List HistorySnapshot)
    (as bs : List TestResult) (r : TestResult)
    (ha : ∀ x ∈ as, x.name ≠ r.name) (hb' : ∀ x ∈ bs, x.name ≠ r.name) :
    mapGet (evaluate s (as ++ r :: bs) h).updated.tests r.name =
      specTransitionEntry (mapGet s.tests r.name) r ∧
    transFilter r.name (evaluate s (as ++ r :: bs) h).violations =
      specTransitionViolations ((mapGet s.tests r.name).map TestEntry.state) r := by
  have hA := evalFold_other s as [] s r.name ha
  have hstep := evalStep_at_name s (as.foldl (evalStep s) ([], s)).1
    (as.foldl (evalStep s) ([], s)).2 r hA.1
  have heta : evalStep s (as.foldl (evalStep s) ([], s)) r =
      evalStep s ((as.foldl (evalStep s) ([], s)).1, (as.foldl (evalStep s) ([], s)).2) r := rfl
  have hB := evalFold_other s bs
    (evalStep s ((as.foldl (evalStep s) ([], s)).1, (as.foldl (evalStep s) ([], s)).2) r).1
    (evalStep s ((as.foldl (evalStep s) ([], s)).1, (as.foldl (evalStep s) ([], s)).2) r).2
    r.name hb'
  constructor
  · show mapGet ((as ++ r :: bs).foldl (evalStep s) ([], s)).2.tests r.name = _
    rw [List.foldl_append, List.foldl_cons, heta]
    rw [show evalStep s ((as.foldl (evalStep s) ([], s)).1, (as.foldl (evalStep s) ([], s)).2) r =
      ((evalStep s ((as.foldl (evalStep s) ([], s)).1, (as.foldl (evalStep s) ([], s)).2) r).1,
       (evalStep s ((as.foldl (evalStep s) ([], s)).1,
         (as.foldl (evalStep s) ([], s)).2) r).2) from rfl]
    rw [hB.1]
    exact hstep.1
  · rw [evaluate_violations_eq]
    rw [transFilter_append, transFilter_append, transFilter_append]
    rw [transFilter_gklist, transFilter_disappeared, transFilter_hist]
    rw [List.foldl_append, List.foldl_cons, heta]
    rw [show evalStep s ((as.foldl (evalStep s) ([], s)).1, (as.foldl (evalStep s) ([], s)).2) r =
      ((evalStep s ((as.foldl (evalStep s) ([], s)).1, (as.foldl (evalStep s) ([], s)).2) r).1,
       (evalStep s ((as.foldl (evalStep s) ([], s)).1,
         (as.foldl (evalStep s) ([], s)).2) r).2) from rfl]
    rw [hB.2, hstep.2, transFilter_append, hA.2, transFilter_specViols]
    simp [transFilter]

/-- C1 witness: a pending test that passes is promoted to passing with no
transition violation, at a concrete one-test ledger. -/
theorem c1_transition_table_witness :
    mapGet (evaluate (StatusFile.new [("p", TestEntry.Simple TestState.pending)] none)
        [⟨"p", TestOutcome.Passed⟩] []).updated.tests "p" =
      some (TestEntry.Simple TestState.passing) ∧
    transFilter "p" (evaluate (StatusFile.new [("p", TestEntry.Simple TestState.pending)] none)
        [⟨"p", TestOutcome.Passed⟩] []).violations = [] := by
  have h := c1_transition_table (StatusFile.new [("p", TestEntry.Simple TestState.pending)] none)
    [] [] [] ⟨"p", TestOutcome.Passed⟩ (by simp) (by simp)
  exact ⟨h.1.trans (by decide), h.2.trans (by decide)⟩

/-- C2: the history rule checker flags exactly the tests whose first-ever
recorded state is passing and that are not exempt, reporting the first-seen
commit; a test whose first-seen state is pending never yields a
`SkippedPending`, regardless of any later appearance (including a later
passing one). -/
theorem c2_history_first_seen (snaps : List HistorySnapshot) (hb : Bool) (n c : String) :
    (HistoryViolation.SkippedPending n c ∈ check_history_snapshots snaps hb ↔
      (firstSeenIn snaps n = some (c, TestState.passing) ∧
        histExemptCond (firstSnapshotCommit snaps hb) (perTestBaselines snaps)
          (commitIndex snaps) n c = false)) ∧
    ((∃ c₀, firstSeenIn snaps n = some (c₀, TestState.pending)) →
      HistoryViolation.SkippedPending n c ∉ check_history_snapshots snaps hb) := by
  refine ⟨check_history_mem snaps hb n c, ?_⟩
  rintro ⟨c₀, hc₀⟩ hmem
  rw [check_history_mem] at hmem
  rw [hc₀] at hmem
  simp at hmem

/-- C2 witness: with a pending-then-passing history no violation is
reported, while a first-seen-passing test is flagged at its first commit. -/
theorem c2_history_first_seen_witness :
    HistoryViolation.SkippedPending "p" "c1" ∉ check_history_snapshots
      [⟨"c0", StatusFile.new [("p", TestEntry.Simple TestState.pending)] none⟩,
       ⟨"c1", StatusFile.new [("p", TestEntry.Simple TestState.passing)] none⟩] false ∧
    HistoryViolation.SkippedPending "q" "c0" ∈ check_history_snapshots
      [⟨"c0", StatusFile.new [("q", TestEntry.Simple TestState.passing)] none⟩] false := by
  constructor
  · exact (c2_history_first_seen
      [⟨"c0", StatusFile.new [("p", TestEntry.Simple TestState.pending)] none⟩,
       ⟨"c1", StatusFile.new [("p", TestEntry.Simple TestState.passing)] none⟩]
      false "p" "c1").2 ⟨"c0", by decide⟩
  · exact (c2_history_first_seen
      [⟨"c0", StatusFile.new [("q", TestEntry.Simple TestState.passing)] none⟩]
      false "q" "c0").1.mpr (by decide)

/-- C3: a test first appearing as passing in the oldest snapshot produces
no violation at all when a global baseline is configured, and the same
test with the same history but no global baseline is flagged. -/
theorem c3_grandfathering (snaps : List HistorySnapshot) (n c : String)
    (h1 : (snaps.head?).map HistorySnapshot.commit = some c)
    (h2 : firstSeenIn snaps n = some (c, TestState.passing))
    (h3 : mapGet (perTestBaselines snaps) n = none)
    (h4 : strEndsWith n GATEKEEPER_TEST_NAME = false) :
    (∀ c', HistoryViolation.SkippedPending n c' ∉ check_history_snapshots snaps true) ∧
      HistoryViolation.SkippedPending n c ∈ check_history_snapshots snaps false := by
  constructor
  · intro c' hmem
    rw [check_history_mem] at hmem
    obtain ⟨hfs, hex⟩ := hmem
    rw [h2] at hfs
    have hcc : c = c' := by simpa using hfs
    subst hcc
    rw [histExemptCond, firstSnapshotCommit] at hex
    rw [if_pos rfl, h1] at hex
    simp at hex
  · rw [check_history_mem]
    refine ⟨h2, ?_⟩
    simp [histExemptCond, firstSnapshotCommit, perTestGrandfathered, h3, h4]

/-- C3 witness: one snapshot whose test is first seen passing at the
oldest commit — exempt with a global baseline, flagged without one. -/
theorem c3_grandfathering_witness :
    HistoryViolation.SkippedPending "t" "c1" ∉ check_history_snapshots
      [⟨"c1", StatusFile.new [("t", TestEntry.Simple TestState.passing)] none⟩] true ∧
    HistoryViolation.SkippedPending "t" "c1" ∈ check_history_snapshots
      [⟨"c1", StatusFile.new [("t", TestEntry.Simple TestState.passing)] none⟩] false := by
  have h := c3_grandfathering
    [⟨"c1", StatusFile.new [("t", TestEntry.Simple TestState.passing)] none⟩]
    "t" "c1" (by decide) (by decide) (by decide) (by decide)
  exact ⟨h.1 "c1", h.2⟩

/-- C5: every ledger test name absent from the live outcome names yields
exactly one `TestDisappeared`, and a name that does occur among the
outcomes (in particular with an `Ignored` outcome) is never reported as
disappeared. -/
theorem c5_disappeared (s : StatusFile) (rs : List TestResult) (h : List HistorySnapshot)
    (n : String) (hsort : SortedKeys s.tests) :
    ((mapGet s.tests n).isSome = true → ¬ (∃ r ∈ rs, r.name = n) →
      List.count (Violation.TestDisappeared n) (evaluate s rs h).violations = 1) ∧
    ((∃ r ∈ rs, r.name = n) →
      List.count (Violation.TestDisappeared n) (evaluate s rs h).violations = 0) := by
  have hgk : List.count (Violation.TestDisappeared n)
      (if hasGatekeeper rs then ([] : List Violation) else [Violation.MissingGatekeeper]) = 0 := by
    cases hg : hasGatekeeper rs <;> simp
  have hT : List.count (Violation.TestDisappeared n)
      (rs.foldl (evalStep s) (([] : List Violation), s)).1 = 0 := by
    rw [List.count_eq_zero]
    intro hmem
    obtain ⟨t, ht⟩ := notMem_T s rs _ hmem
    rcases ht with ht | ht <;> simp at ht
  have hH : List.count (Violation.TestDisappeared n)
      ((check_history_snapshots h s.baseline.isSome).map
        (fun hv => match hv with
          | HistoryViolation.SkippedPending t c => Violation.SkippedPending t c)) = 0 := by
    rw [List.count_eq_zero]
    intro hmem
    obtain ⟨t, c, ht⟩ := histMapped_shape _ _ hmem
    simp at ht
  have hkey : List.count (Violation.TestDisappeared n) (evaluate s rs h).violations =
      List.count (Violation.TestDisappeared n) (disappearedViolations s rs) := by
    rw [evaluate_violations_eq, List.count_append, List.count_append, List.count_append,
      hgk, hT, hH]
    omega
  constructor
  · intro h1 h2
    rw [hkey, count_disappeared s rs n hsort, if_pos ⟨h1, h2⟩]
  · intro h1
    rw [hkey, count_disappeared s rs n hsort, if_neg]
    rintro ⟨_, h2⟩
    exact h2 h1

/-- C5 witness: the spec scenario — ledger tracking only `x`, empty
outcome set — yields exactly one `TestDisappeared x`. -/
theorem c5_disappeared_witness :
    List.count (Violation.TestDisappeared "x")
      (evaluate (StatusFile.new [("x", TestEntry.Simple TestState.passing)] none) [] []).violations
      = 1 :=
  (c5_disappeared (StatusFile.new [("x", TestEntry.Simple TestState.passing)] none) [] [] "x"
    (by unfold SortedKeys; decide)).1 (by decide) (by simp)

/-- C6: `MissingGatekeeper` is among the violations exactly when no
outcome's name matches the gatekeeper, the check blocks nothing (the other
violations are untouched by it), and a first-seen gatekeeper that passes
is added as passing with zero violations. -/
theorem c6_gatekeeper (s : StatusFile) (rs : List TestResult) (h : List HistorySnapshot) :
    (Violation.MissingGatekeeper ∈ (evaluate s rs h).violations ↔ hasGatekeeper rs = false) ∧
    (evaluate s rs h).violations =
      (if hasGatekeeper rs then ([] : List Violation) else [Violation.MissingGatekeeper]) ++
        ((evaluate s rs h).violations.filter
          (fun v => decide (v ≠ Violation.MissingGatekeeper))) ∧
    evaluate (StatusFile.new [] none) [⟨GATEKEEPER_TEST_NAME, TestOutcome.Passed⟩] [] =
      { violations := [],
        updated := StatusFile.new
          [(GATEKEEPER_TEST_NAME, TestEntry.Simple TestState.passing)] none } := by
  refine ⟨evaluate_missingGk_iff s rs h, ?_, by decide⟩
  rw [evaluate_violations_eq, List.filter_append]
  have hgkf : (if hasGatekeeper rs then ([] : List Violation)
      else [Violation.MissingGatekeeper]).filter
      (fun v => decide (v ≠ Violation.MissingGatekeeper)) = [] := by
    cases hg : hasGatekeeper rs <;> simp
  have hrest : ((rs.foldl (evalStep s) (([] : List Violation), s)).1 ++
      disappearedViolations s rs ++
      (check_history_snapshots h s.baseline.isSome).map
        (fun hv => match hv with
          | HistoryViolation.SkippedPending t c => Violation.SkippedPending t c)).filter
      (fun v => decide (v ≠ Violation.MissingGatekeeper)) = _ :=
    List.filter_eq_self.mpr (fun a ha => by
      simpa using missingGk_notMem_rest s rs h a ha)
  rw [hgkf, hrest]
  simp

/-- C7: the updated ledger always reflects exactly the transition loop's
effect — it equals the legacy checker's updated ledger and is independent
of the history snapshots, so no legitimate transition is dropped because
an unrelated violation (regression, disappearance, history, gatekeeper)
was found. -/
theorem c7_frame_preservation (s : StatusFile) (rs : List TestResult)
    (h : List HistorySnapshot) :
    (evaluate s rs h).updated = (check_ratchet s rs).updated ∧
    ∀ h', (evaluate s rs h).updated = (evaluate s rs h').updated :=
  ⟨foldSnd_eq s rs [] [] s, fun h' => rfl⟩

/-- C4: a test whose latest-snapshot entry carries a per-test baseline X is
exempt from `SkippedPending` when its first tracked appearance is at or
after X in traversal order, even with no global baseline; when X is absent
from the traversed snapshots entirely the test is exempt (permissive
default); a test without a per-test baseline and the same first-seen
passing history is flagged (with no global baseline). -/
theorem c4_per_test_baseline (snaps : List HistorySnapshot) (n c : String) (hb : Bool) :
    ((∃ b, mapGet (perTestBaselines snaps) n = some b ∧
        (mapGet (commitIndex snaps) b = none ∨
          ∃ si bi, mapGet (commitIndex snaps) c = some si ∧
            mapGet (commitIndex snaps) b = some bi ∧ bi ≤ si)) →
      firstSeenIn snaps n = some (c, TestState.passing) →
      ∀ c', HistoryViolation.SkippedPending n c' ∉ check_history_snapshots snaps hb) ∧
    (mapGet (perTestBaselines snaps) n = none →
      strEndsWith n GATEKEEPER_TEST_NAME = false →
      firstSeenIn snaps n = some (c, TestState.passing) →
      HistoryViolation.SkippedPending n c ∈ check_history_snapshots snaps false) := by
  constructor
  · rintro ⟨b, hptb, hidx⟩ hfs c' hmem
    rw [check_history_mem] at hmem
    obtain ⟨hfs', hex⟩ := hmem
    rw [hfs] at hfs'
    have hcc : c = c' := by simpa using hfs'
    subst hcc
    have hpg : perTestGrandfathered (perTestBaselines snaps) (commitIndex snaps) n c = true := by
      have hred : perTestGrandfathered (perTestBaselines snaps) (commitIndex snaps) n c =
          (match mapGet (commitIndex snaps) c, mapGet (commitIndex snaps) b with
           | some si, some bi => decide (bi ≤ si)
           | some _, none => true
           | _, _ => false) := by
        unfold perTestGrandfathered
        rw [hptb]
      rw [hred]
      rcases hidx with hnone | ⟨si, bi, hsi, hbi, hle⟩
      · have hmemc : (mapGet (commitIndex snaps) c).isSome = true :=
          commitIndex_isSome snaps c
            (firstSeenIn_mem_commits snaps n c TestState.passing hfs)
        obtain ⟨si, hsi⟩ := Option.isSome_iff_exists.mp hmemc
        rw [hsi, hnone]
      · rw [hsi, hbi]
        simp [hle]
    rw [histExemptCond, hpg] at hex
    simp at hex
  · intro hptb hgk hfs
    rw [check_history_mem]
    refine ⟨hfs, ?_⟩
    simp [histExemptCond, firstSnapshotCommit, perTestGrandfathered, hptb, hgk]

/-- C4 witness: test `t` carries baseline `c0` and first appears passing
at `c1` (index 1 ≥ 0), so it is exempt; same-history test `u` without a
baseline is flagged. -/
theorem c4_per_test_baseline_witness :
    HistoryViolation.SkippedPending "t" "c1" ∉ check_history_snapshots
      [⟨"c0", StatusFile.new [] none⟩,
       ⟨"c1", StatusFile.new [("t", TestEntry.WithBaseline TestState.passing "c0"),
          ("u", TestEntry.Simple TestState.passing)] none⟩] false ∧
    HistoryViolation.SkippedPending "u" "c1" ∈ check_history_snapshots
      [⟨"c0", StatusFile.new [] none⟩,
       ⟨"c1", StatusFile.new [("t", TestEntry.WithBaseline TestState.passing "c0"),
          ("u", TestEntry.Simple TestState.passing)] none⟩] false := by
  constructor
  · exact (c4_per_test_baseline
      [⟨"c0", StatusFile.new [] none⟩,
       ⟨"c1", StatusFile.new [("t", TestEntry.WithBaseline TestState.passing "c0"),
          ("u", TestEntry.Simple TestState.passing)] none⟩] "t" "c1" false).1
      ⟨"c0", by decide, Or.inr ⟨1, 0, by decide, by decide, by decide⟩⟩ (by decide) "c1"
  · exact (c4_per_test_baseline
      [⟨"c0", StatusFile.new [] none⟩,
       ⟨"c1", StatusFile.new [("t", TestEntry.WithBaseline TestState.passing "c0"),
          ("u", TestEntry.Simple TestState.passing)] none⟩] "u" "c1" false).2
      (by decide) (by decide) (by decide)

/-- C9: a ledger entry serializes compactly (a bare state string) without a
baseline and as a structured state-plus-baseline object with one; both
shapes deserialize back, and every entry round-trips to itself. -/
theorem c9_entry_forms :
    (∀ e : TestEntry, TestEntry.fromJson (TestEntry.toJson e) = some e) ∧
    (∀ st : TestState, TestEntry.toJson (TestEntry.Simple st) = Json.str st.toJsonStr) ∧
    (∀ st b, TestEntry.toJson (TestEntry.WithBaseline st b) =
      Json.obj [("state", Json.str st.toJsonStr), ("baseline", Json.str b)]) ∧
    (∀ st : TestState, TestEntry.fromJson (Json.str st.toJsonStr) =
      some (TestEntry.Simple st)) ∧
    (∀ st b, TestEntry.fromJson
        (Json.obj [("state", Json.str st.toJsonStr), ("baseline", Json.str b)]) =
      some (TestEntry.WithBaseline st b)) := by
  refine ⟨entry_roundtrip, fun st => rfl, fun st b => rfl, ?_, ?_⟩
  · intro st
    cases st <;> rfl
  · intro st b
    cases st <;> rfl

/-- C8: saving then loading restores the ledger's tests and baseline;
save-load-save round-trips to the identical serialization (idempotent
modulo the schema annotation, which save always adds); the serialization
is annotated with the schema identifier and lists the tests in
alphabetical key order. -/
theorem c8_save_load_roundtrip (x : StatusFile) (hs : SortedKeys x.tests) :
    (∃ y, StatusFile.load (StatusFile.save x) = some y ∧ y.tests = x.tests ∧
      y.baseline = x.baseline) ∧
    (StatusFile.load (StatusFile.save x)).map StatusFile.save = some (StatusFile.save x) ∧
    (∃ fields, StatusFile.save x =
      Json.obj (("$schema", Json.str SCHEMA_URL) ::
        ("tests", Json.obj (x.tests.map (fun p => (p.1, p.2.toJson)))) :: fields)) ∧
    List.Pairwise (fun a b => strLt a b = true)
      ((x.tests.map (fun p => (p.1, p.2.toJson))).map Prod.fst) := by
  refine ⟨⟨_, load_save x hs, rfl, rfl⟩, ?_, ?_, ?_⟩
  · rw [load_save x hs]
    rfl
  · rcases hbl : x.baseline with _ | b
    · exact ⟨[], by simp [StatusFile.save, StatusFile.toJson, hbl]⟩
    · exact ⟨[("baseline", Json.str b)], by simp [StatusFile.save, StatusFile.toJson, hbl]⟩
  · unfold SortedKeys at hs
    simpa [List.map_map, List.pairwise_map] using hs

/-- C8 witness: a concrete two-test ledger with a global baseline
round-trips through save and load. -/
theorem c8_save_load_roundtrip_witness :
    ∃ y, StatusFile.load (StatusFile.save (StatusFile.new
        [("a_test", TestEntry.Simple TestState.passing),
         ("b_test", TestEntry.WithBaseline TestState.pending "abc")] (some "c0"))) = some y ∧
      y.tests = (StatusFile.new
        [("a_test", TestEntry.Simple TestState.passing),
         ("b_test", TestEntry.WithBaseline TestState.pending "abc")] (some "c0")).tests ∧
      y.baseline = (StatusFile.new
        [("a_test", TestEntry.Simple TestState.passing),
         ("b_test", TestEntry.WithBaseline TestState.pending "abc")] (some "c0")).baseline :=
  (c8_save_load_roundtrip (StatusFile.new
    [("a_test", TestEntry.Simple TestState.passing),
     ("b_test", TestEntry.WithBaseline TestState.pending "abc")] (some "c0"))
    (by unfold SortedKeys; decide)).1

/-- C10: gatekeeper identification is by name suffix, not exact equality —
any outcome whose test name merely ends with the gatekeeper name satisfies
the presence check; first seen passing it is added as passing rather than
flagged `NewTestPassed`; and the history checker never flags it. -/
theorem c10_gatekeeper_by_suffix (s : StatusFile) (h : List HistorySnapshot) (n : String)
    (o : TestOutcome) (hg : strEndsWith n GATEKEEPER_TEST_NAME = true) :
    (Violation.MissingGatekeeper ∉ (evaluate s [⟨n, o⟩] h).violations) ∧
    (mapGet s.tests n = none → o = TestOutcome.Passed →
      mapGet (evaluate s [⟨n, o⟩] h).updated.tests n =
        some (TestEntry.Simple TestState.passing) ∧
      Violation.NewTestPassed n ∉ (evaluate s [⟨n, o⟩] h).violations) ∧
    (∀ snaps hb c, HistoryViolation.SkippedPending n c ∉ check_history_snapshots snaps hb) := by
  have hgk : hasGatekeeper [⟨n, o⟩] = true := by simp [hasGatekeeper, hg]
  refine ⟨?_, ?_, ?_⟩
  · intro hmem
    rw [evaluate_missingGk_iff] at hmem
    rw [hgk] at hmem
    exact absurd hmem (by simp)
  · intro hnone hpass
    subst hpass
    constructor
    · show mapGet (([⟨n, TestOutcome.Passed⟩].foldl (evalStep s) ([], s)).2).tests n = _
      simp [evalStep, hnone, hg, mapGet_mapInsert]
    · intro hmem
      rw [evaluate_violations_eq] at hmem
      rcases List.mem_append.mp hmem with hm | hm
      · rw [hgk] at hm
        simp at hm
      · rcases List.mem_append.mp hm with hm' | hm'
        · rcases List.mem_append.mp hm' with hm'' | hm''
          · simp [evalStep, hnone, hg] at hm''
          · obtain ⟨t, ht⟩ := disappeared_shape s _ _ hm''
            simp at ht
        · obtain ⟨t, c, ht⟩ := histMapped_shape _ _ hm'
          simp at ht
  · intro snaps hb c hmem
    rw [check_history_mem] at hmem
    have hex := hmem.2
    rw [histExemptCond, hg] at hex
    simp at hex

/-- C10 witness: a test named `my_tdd_ratchet_gatekeeper` first seen
passing is added as passing and satisfies the gatekeeper presence check. -/
theorem c10_gatekeeper_by_suffix_witness :
    mapGet (evaluate (StatusFile.new [] none)
        [⟨"my_tdd_ratchet_gatekeeper", TestOutcome.Passed⟩] []).updated.tests
      "my_tdd_ratchet_gatekeeper" = some (TestEntry.Simple TestState.passing) ∧
    Violation.MissingGatekeeper ∉ (evaluate (StatusFile.new [] none)
        [⟨"my_tdd_ratchet_gatekeeper", TestOutcome.Passed⟩] []).violations := by
  have hth := c10_gatekeeper_by_suffix (StatusFile.new [] none) []
    "my_tdd_ratchet_gatekeeper" TestOutcome.Passed (by decide)
  exact ⟨(hth.2.1 (by decide) rfl).1, hth.1⟩
